import Mathlib

/-!
Verification of the vendoza audit/sync engine (`src/unnamed/part_001`,
second revision of `audit.ts`, lines 237-619) against its natural-language
specification.

Modelling conventions:
* Texts are modelled by their line sequences (`List String`); the
  TypeScript code passes whole strings to the jsdiff library, which
  immediately splits them into lines.
* JavaScript string primitives (`startsWith`, `slice`) are modelled over
  the character data of Lean strings by structural functions
  (`strStartsWith`, `strDrop`), so that all definitions are executable by
  the kernel.
* The external jsdiff engine (`structuredPatch`, `applyPatch`) and node's
  `path` helpers are not part of this repository's sources; they are
  modelled from the spec where needed, and each such definition carries a
  doc comment saying so.
* Network transport (`readGitSource`) is treated as an external
  collaborator, passed in as an oracle, exactly as the spec declares it
  out of scope.
-/

namespace Vendoza

/-- A diff hunk, the `Hunk` shape of the jsdiff library as recorded in the
spec's data model: 1-based start lines and line counts on the old and new
side, and the patch body as prefixed lines (`+` added, `-` removed, space
for context). -/
structure Hunk where
  oldStart : Nat
  oldLines : Nat
  newStart : Nat
  newLines : Nat
  lines : List String
deriving DecidableEq, Repr

/-- JavaScript `String.prototype.startsWith`, modelled over character
data with a structural prefix test. -/
def strStartsWith (s p : String) : Bool :=
  p.data.isPrefixOf s.data

/-- JavaScript `String.prototype.slice(n)` (drop the first `n`
characters), modelled over character data. -/
def strDrop (s : String) (n : Nat) : String :=
  ⟨s.data.drop n⟩

/-- One edit operation of a line diff script.  Modelled from the spec:
the diff engine (`structuredPatch` of the external jsdiff package, not
part of this repository's sources) is "a standard
longest-common-subsequence-based line diff". -/
inductive Edit where
  | keep (s : String)
  | del (s : String)
  | ins (s : String)
deriving DecidableEq, Repr

/-- Whether an edit changes the text (anything but a kept context line). -/
def Edit.isChange : Edit → Bool
  | .keep _ => false
  | .del _ => true
  | .ins _ => true

/-- The mirror image of an edit: deletions and insertions swap roles.
This is the script-level counterpart of the source's `reversePatch`. -/
def Edit.flip : Edit → Edit
  | .keep s => .keep s
  | .del s => .ins s
  | .ins s => .del s

/-- The line an edit contributes to the old text, if any. -/
def Edit.oldLine : Edit → Option String
  | .keep s => some s
  | .del s => some s
  | .ins _ => none

/-- The line an edit contributes to the new text, if any. -/
def Edit.newLine : Edit → Option String
  | .keep s => some s
  | .del _ => none
  | .ins s => some s

/-- The rendering of an edit as a prefixed patch-body line. -/
def Edit.line : Edit → String
  | .keep s => " " ++ s
  | .del s => "-" ++ s
  | .ins s => "+" ++ s

/-- The old text described by an edit script (kept and deleted lines). -/
def oldOf (es : List Edit) : List String :=
  es.filterMap Edit.oldLine

/-- The new text described by an edit script (kept and inserted lines). -/
def newOf (es : List Edit) : List String :=
  es.filterMap Edit.newLine

/-- Cost of an edit script: the number of changed lines. -/
def editCost (es : List Edit) : Nat :=
  (es.filter Edit.isChange).length

/-- Modelled from the spec: the LCS-based line diff underlying
`structuredPatch` (external jsdiff package, not part of this repository's
sources).  Equal heads are kept as context; otherwise the cheaper of
deleting the left head or inserting the right head is chosen. -/
def editScript : List String → List String → List Edit
  | [], [] => []
  | [], b :: bs => .ins b :: editScript [] bs
  | a :: as, [] => .del a :: editScript as []
  | a :: as, b :: bs =>
    if a = b then
      .keep a :: editScript as bs
    else
      let d := editScript as (b :: bs)
      let i := editScript (a :: as) bs
      if editCost d ≤ editCost i then .del a :: d else .ins b :: i
termination_by as bs => as.length + bs.length
decreasing_by all_goals simp [List.length_cons] <;> omega

/-- Modelled from the spec: hunk assembly of the diff engine with "zero
context lines of padding around changes" — maximal runs of changed lines
become hunks, unchanged lines are skipped entirely.  `o` and `n` count
the old and new lines already consumed before the remaining script. -/
def scriptToHunks : List Edit → Nat → Nat → List Hunk
  | [], _, _ => []
  | .keep _ :: es, o, n => scriptToHunks es (o + 1) (n + 1)
  | .del s :: es, o, n =>
    let run := (Edit.del s :: es).takeWhile Edit.isChange
    let rest := (Edit.del s :: es).dropWhile Edit.isChange
    { oldStart := o + 1, oldLines := (oldOf run).length,
      newStart := n + 1, newLines := (newOf run).length,
      lines := run.map Edit.line } ::
      scriptToHunks rest (o + (oldOf run).length) (n + (newOf run).length)
  | .ins s :: es, o, n =>
    let run := (Edit.ins s :: es).takeWhile Edit.isChange
    let rest := (Edit.ins s :: es).dropWhile Edit.isChange
    { oldStart := o + 1, oldLines := (oldOf run).length,
      newStart := n + 1, newLines := (newOf run).length,
      lines := run.map Edit.line } ::
      scriptToHunks rest (o + (oldOf run).length) (n + (newOf run).length)
termination_by es _ _ => es.length
decreasing_by
  all_goals
    simp only [List.dropWhile_cons, Edit.isChange, if_true, List.length_cons]
  · omega
  all_goals
    have h : ∀ l : List Edit, (l.dropWhile Edit.isChange).length ≤ l.length := by
      intro l
      induction l with
      | nil => simp
      | cons x xs ih =>
        rw [List.dropWhile_cons]
        split
        · exact Nat.le_trans ih (Nat.le_succ _)
        · exact Nat.le_refl _
    exact Nat.lt_succ_of_le (h _)

/-- The repository's `diff` (src/unnamed/part_001, lines 367-371): the
hunks between two texts, via the jsdiff `structuredPatch` engine modelled
above.  Texts are modelled by their line sequences. -/
def diff (a b : List String) : List Hunk :=
  scriptToHunks (editScript a b) 0 0

/-- The line flip inside the repository's `reversePatch`
(src/unnamed/part_001, lines 453-461): a leading `+` becomes `-`, a
leading `-` becomes `+`, anything else is unchanged. -/
def flipLine (line : String) : String :=
  if strStartsWith line "+" then "-" ++ strDrop line 1
  else if strStartsWith line "-" then "+" ++ strDrop line 1
  else line

/-- The repository's `reversePatch` (src/unnamed/part_001, lines
446-465): swaps the old and new positions and counts of every hunk and
flips its line prefixes.  The `linedelimiters` field of jsdiff (always
normalized to newlines by the source) is not part of the spec's five-field
hunk model and is omitted. -/
def reversePatch (hunks : List Hunk) : List Hunk :=
  hunks.map fun hunk =>
    { oldStart := hunk.newStart, oldLines := hunk.newLines,
      newStart := hunk.oldStart, newLines := hunk.oldLines,
      lines := hunk.lines.map flipLine }

/-- The old-side lines of a hunk body: context and removed lines, with
their prefix character stripped. -/
def oldSideOf (lines : List String) : List String :=
  (lines.filter fun l => !(strStartsWith l "+")).map fun l => strDrop l 1

/-- The new-side lines of a hunk body: context and added lines, with
their prefix character stripped. -/
def newSideOf (lines : List String) : List String :=
  (lines.filter fun l => !(strStartsWith l "-")).map fun l => strDrop l 1

/-- Modelled from the spec: the external jsdiff `applyPatch` (not part of
this repository's sources) applies hunks in order and "fails ... if a
hunk's context does not match the baseline at the stated position".
`pos` counts the lines of the old text already consumed; the returned
text is the patched remainder. -/
def applyHunksAux : List Hunk → List String → Nat → Option (List String)
  | [], old, _ => some old
  | h :: hs, old, pos =>
    if pos ≤ h.oldStart - 1 then
      let skip := h.oldStart - 1 - pos
      let ctx := old.take skip
      let rest := old.drop skip
      let olds := oldSideOf h.lines
      let news := newSideOf h.lines
      if skip ≤ old.length ∧ olds.length ≤ rest.length ∧
          rest.take olds.length = olds then
        match applyHunksAux hs (rest.drop olds.length)
            (h.oldStart - 1 + olds.length) with
        | some out => some (ctx ++ news ++ out)
        | none => none
      else none
    else none

/-- Modelled from the spec: applying a hunk sequence to a text, `none` on
a context mismatch. -/
def applyHunks (hunks : List Hunk) (old : List String) : Option (List String) :=
  applyHunksAux hunks old 0

/-- The result shape of the repository's `listCompare`; the source's
field `match` is a Lean keyword and is rendered `matched` (the spec's
name for it). -/
structure Reconciled (α : Type) where
  matched : List α
  leftDiff : List α
  rightDiff : List α
deriving Repr

/-- The repository's `listCompare` (src/unnamed/part_001, lines 487-498):
three-way comparison of two lists; JavaScript `Set` membership is
modelled by decidable list membership. -/
def listCompare [DecidableEq α] (left right : List α) : Reconciled α :=
  { matched := left.filter fun x => decide (x ∈ right),
    leftDiff := left.filter fun x => decide (x ∉ right),
    rightDiff := right.filter fun x => decide (x ∉ left) }

/-- JSON escaping of one character, modelling `JSON.stringify` on string
bodies (quote and backslash escapes; other characters pass through). -/
def jsonEscapeChar (c : Char) : String :=
  if c = '"' then "\\\"" else if c = '\\' then "\\\\" else String.mk [c]

/-- JSON rendering of a string, modelling `JSON.stringify`. -/
def jsonStr (s : String) : String :=
  "\"" ++ String.join (s.data.map jsonEscapeChar) ++ "\""

/-- JSON rendering of an array of strings. -/
def jsonStrList (ss : List String) : String :=
  "[" ++ String.intercalate "," (ss.map jsonStr) ++ "]"

/-- Decimal rendering of a number, structurally recursive so the kernel
can evaluate it. -/
def natStr (n : Nat) : String :=
  ⟨(Nat.toDigits 10 n)⟩

/-- The repository's `stringifyHunk` (src/unnamed/part_001, lines
392-394): `JSON.stringify` of the hunk record, the canonical
serialization used for hunk-set comparison. -/
def stringifyHunk (hunk : Hunk) : String :=
  "\x7b\"oldStart\":" ++ natStr hunk.oldStart ++
    ",\"oldLines\":" ++ natStr hunk.oldLines ++
    ",\"newStart\":" ++ natStr hunk.newStart ++
    ",\"newLines\":" ++ natStr hunk.newLines ++
    ",\"lines\":" ++ jsonStrList hunk.lines ++ "\x7d"

/-- Modelled from the spec: terminal coloring (the chalk collaborator) is
presentation-only and is modelled as the identity on strings. -/
def chalkGreen (s : String) : String := s

/-- Modelled from the spec: terminal coloring, identity on strings. -/
def chalkRed (s : String) : String := s

/-- The repository's `showHunk` (src/unnamed/part_001, lines 373-390):
human-readable rendering of a hunk. -/
def showHunk (hunk : Hunk) : String :=
  let header := "@@ -" ++ natStr hunk.oldStart ++ "," ++ natStr hunk.oldLines ++
    " +" ++ natStr hunk.newStart ++ "," ++ natStr hunk.newLines
  let body := hunk.lines.map fun line =>
    if strStartsWith line "+" then chalkGreen line
    else if strStartsWith line "-" then chalkRed line
    else line
  String.intercalate "\n" ("---found" :: "+++expected" :: header :: body)

/-- A divergence record, the non-null result shape of the repository's
`compareDeltas`. -/
structure Divergence where
  error : String
  given : List Hunk
  fileName : String
deriving DecidableEq, Repr

/-- The repository's `compareDeltas` (src/unnamed/part_001, lines
400-433): reconciles the serialized found and expected hunk lists with
`listCompare` and returns `none` exactly when both diff sides are empty.
The source recovers the offending hunks from the serialized strings with
`parseHunk` (`JSON.parse`); since `parseHunk` inverts `stringifyHunk`,
the model filters the original hunk lists instead. -/
def compareDeltas (fileName : String) (given exp : List Hunk) :
    Option Divergence :=
  let r := listCompare (given.map stringifyHunk) (exp.map stringifyHunk)
  if r.leftDiff.length = 0 ∧ r.rightDiff.length = 0 then
    none
  else
    let extraHunks := given.filter fun h =>
      decide (stringifyHunk h ∉ exp.map stringifyHunk)
    let missingHunks := exp.filter fun h =>
      decide (stringifyHunk h ∉ given.map stringifyHunk)
    let res :=
      (if extraHunks.length > 0 then
        ["Found unexpected diffs in " ++ fileName ++ ": \n\n" ++
          String.intercalate "\n\n" (extraHunks.map showHunk)]
      else []) ++
      (if missingHunks.length > 0 then
        ["Missing expected diffs in " ++ fileName ++ ": \n\n" ++
          String.intercalate "\n\n" (missingHunks.map showHunk)]
      else [])
    some { error := String.intercalate "\n\n" res, given := given,
           fileName := fileName }

/-- The `git` source variant of a manifest item
(src/unnamed/part_001, lines 243-247). -/
structure GitSource where
  repo : String
  commit : String
  path : Option String
deriving DecidableEq, Repr

/-- A manifest item's `source` value as found in the parsed JSON
document.  The TypeScript type declares only the `git` variant, but a
parsed document may carry any other key; `other` records such a variant
by its key name. -/
inductive SourceJson where
  | git (g : GitSource)
  | other (key : String)
deriving DecidableEq, Repr

/-- A normalized manifest item (src/unnamed/part_001, lines 251-254). -/
structure ManifestItem where
  source : SourceJson
  patches : List Hunk
deriving DecidableEq, Repr

/-- A manifest item as it appears in the parsed JSON document, with the
`patches` key optional. -/
structure ManifestItemJson where
  source : SourceJson
  patches : Option (List Hunk)
deriving DecidableEq, Repr

/-- The parsed manifest JSON document (src/unnamed/part_001, lines
265-270); all top-level keys optional.  JSON object fields are modelled
as association lists in document order. -/
structure ManifestJson where
  files : Option (List (String × ManifestItemJson))
  strict : Option Bool
  manifestDir : Option String
  allowedExtra : Option (List String)
deriving DecidableEq, Repr

/-- The normalized in-memory manifest (src/unnamed/part_001, lines
258-263).  The JavaScript `Map` is modelled as the association list of
its insertion-ordered entries. -/
structure Manifest where
  files : List (String × ManifestItem)
  strict : Bool
  manifestDir : String
  allowedExtra : List String
deriving DecidableEq, Repr

/-- Lookup in a JavaScript `Map` built from an entry list: a later entry
with the same key overwrites an earlier one. -/
def jsMapGet (entries : List (String × α)) (k : String) : Option α :=
  match entries with
  | [] => none
  | e :: es =>
    match jsMapGet es k with
    | some v => some v
    | none => if e.1 = k then some e.2 else none

/-- Key iteration of a JavaScript `Map` built from an entry list: keys in
first-insertion order, each once. -/
def jsMapKeysAux (seen : List String) : List (String × α) → List String
  | [] => []
  | e :: es =>
    if e.1 ∈ seen then jsMapKeysAux seen es
    else e.1 :: jsMapKeysAux (e.1 :: seen) es

/-- The key list of a JavaScript `Map` built from an entry list. -/
def jsMapKeys (entries : List (String × α)) : List String :=
  jsMapKeysAux [] entries

/-- Modelled from the spec: node's `path.dirname` (external collaborator)
— the containing directory of a POSIX path, `"."` when the path has no
directory part. -/
def splitSlash : List Char → List (List Char)
  | [] => [[]]
  | c :: cs =>
    if c = '/' then [] :: splitSlash cs
    else
      match splitSlash cs with
      | [] => [[c]]
      | p :: ps => (c :: p) :: ps

/-- Modelled from the spec: node's `path.dirname`. -/
def dirname (p : String) : String :=
  let parts := (splitSlash p.data).map String.mk
  if parts.length ≤ 1 then "."
  else String.intercalate "/" parts.dropLast

/-- Modelled from the spec: node's `path.relative` (external
collaborator), in the cases this repository exercises — the target is
returned stripped of the base directory sliding, or unchanged when the
base is `"."` or not a parent of the target. -/
def relativePath (base target : String) : String :=
  if base = "." then target
  else if strStartsWith target (base ++ "/") then
    strDrop target (base.length + 1)
  else target

/-- The repository's `loadManifest` (src/unnamed/part_001, lines
294-319), given the already-parsed JSON document: defaults `strict` to
`false` and per-item `patches` to `[]`, defaults `manifestDir` to the
manifest file's containing directory, and appends the manifest file's
path relative to `manifestDir` to the declared `allowedExtra` list. -/
def loadManifest (manifestFile : String) (doc : ManifestJson) : Manifest :=
  let manifestDir := doc.manifestDir.getD (dirname manifestFile)
  let manifestItems := (doc.files.getD []).map fun e =>
    (e.1, { source := e.2.source, patches := e.2.patches.getD [] : ManifestItem })
  { files := manifestItems,
    strict := doc.strict.getD false,
    manifestDir := manifestDir,
    allowedExtra := (doc.allowedExtra.getD []).concat
      (relativePath manifestDir manifestFile) }

/-- The error taxonomy of the run, from the spec's error-handling design
and the messages thrown in the source. -/
inductive VendozaError where
  | unsupportedSource (fileName : String)
  | fetchError (message : String)
  | noManifestItem (fileName : String)
  | patchApply (fileName : String)
deriving DecidableEq, Repr

/-- The remote transport oracle: stands for `readGitSource`
(src/unnamed/part_001, lines 321-355), the network collaborator the spec
declares out of scope; it returns the fetched baseline's lines or a fetch
error. -/
def FetchOracle : Type :=
  GitSource → String → Except VendozaError (List String)

/-- The repository's `readSource` (src/unnamed/part_001, lines 357-365):
dispatches a `git` source to the transport, and fails with the
unsupported-source error for any other variant. -/
def readSource (fetchGit : FetchOracle) (fileName : String)
    (source : SourceJson) : Except VendozaError (List String) :=
  match source with
  | .git g => fetchGit g fileName
  | .other _ => .error (.unsupportedSource fileName)

/-- The repository's `checkFile` (src/unnamed/part_001, lines 435-444):
fetches the baseline, diffs the local contents against it, and compares
the found hunks with the item's declared patches. -/
def checkFile (fetchGit : FetchOracle) (fileName : String)
    (contents : List String) (item : ManifestItem) :
    Except VendozaError (Option Divergence) := do
  let sourced ← readSource fetchGit fileName item.source
  let patches := diff contents sourced
  return compareDeltas fileName patches item.patches

/-- The repository's `patchFile` (src/unnamed/part_001, lines 467-485):
fetches the baseline, reverses the item's recorded patches, applies them,
and writes the result under `manifestDir`.  The external jsdiff
`applyPatch` is modelled from the spec as `applyHunks`; a context
mismatch is the spec's per-file `PatchApplyError`.  The returned pair is
the write event (path and written lines). -/
def patchFile (fetchGit : FetchOracle) (fileName manifestDir : String)
    (item : ManifestItem) : Except VendozaError (String × List String) := do
  let sourced ← readSource fetchGit fileName item.source
  let reversedPatches := reversePatch item.patches
  match applyHunks reversedPatches sourced with
  | some patched => return (manifestDir ++ "/" ++ fileName, patched)
  | none => .error (.patchApply fileName)

/-- The aggregate outcome of one audit run: the reconciled file sets, the
collected divergences, the verdict flag, and the trace of file-system
writes the run performs. -/
structure AuditResult where
  files : List String
  missingFiles : List String
  extraFiles : List String
  errors : List Divergence
  strict : Bool
  failed : Bool
  writes : List (String × String)
deriving DecidableEq, Repr

/-- Serialization of the found-patches map written to `patches.json`,
modelling `JSON.stringify(patches, null, 2)` up to whitespace. -/
def stringifyPatches (ps : List (String × List Hunk)) : String :=
  "\x7b" ++ String.intercalate "," (ps.map fun p =>
    jsonStr p.1 ++ ":[" ++
      String.intercalate "," (p.2.map stringifyHunk) ++ "]") ++ "\x7d"

/-- The repository's `audit` (src/unnamed/part_001, lines 504-595),
as a pure function of the parsed manifest document, the enumerated disk
file list (relative paths under `manifestDir`), the local file contents,
and the transport oracle.  Console output is presentation and is not
modelled; `process.exit(1)` is captured by the `failed` flag; the single
possible `writeFile` call is captured in the `writes` trace. -/
def audit (fetchGit : FetchOracle) (manifestFile : String)
    (doc : ManifestJson) (diskFiles : List String)
    (readDisk : String → List String) (writePatches : Bool) :
    Except VendozaError AuditResult :=
  let manifest := loadManifest manifestFile doc
  let r := listCompare diskFiles (jsMapKeys manifest.files)
  let files := r.matched
  let extraFilesFound := r.leftDiff
  let missingFiles := r.rightDiff
  match files.mapM (fun fileName =>
      (match jsMapGet manifest.files fileName with
      | none => .error (.noManifestItem fileName)
      | some item =>
        checkFile fetchGit fileName (readDisk fileName) item :
        Except VendozaError (Option Divergence))) with
  | .error e => .error e
  | .ok comparisons =>
    let extraFiles := extraFilesFound.filter fun file =>
      decide (file ∉ manifest.allowedExtra)
    let errors := comparisons.filterMap id
    let failed1 := if missingFiles.length > 0 then true else false
    let failed2 :=
      if extraFiles.length > 0 then
        if manifest.strict then true else failed1
      else failed1
    let failed3 := if errors.length > 0 then true else failed2
    let patches := errors.map fun e => (e.fileName, e.given)
    let writes :=
      if patches.length > 0 ∧ writePatches then
        [("patches.json", stringifyPatches patches)]
      else []
    .ok { files := files, missingFiles := missingFiles,
          extraFiles := extraFiles, errors := errors,
          strict := manifest.strict, failed := failed3, writes := writes }

/-- The declared files a sync run processes: the manifest-declared files
present on disk followed by the declared files missing from disk
(src/unnamed/part_001, lines 603-610). -/
def syncFiles (manifest : Manifest) (diskFiles : List String) : List String :=
  let r := listCompare diskFiles (jsMapKeys manifest.files)
  r.matched ++ r.rightDiff

/-- The per-file outcome of a sync run for one declared file. -/
def syncFileResult (fetchGit : FetchOracle) (manifest : Manifest)
    (fileName : String) : Except VendozaError (String × List String) :=
  match jsMapGet manifest.files fileName with
  | none => .error (.noManifestItem fileName)
  | some item => patchFile fetchGit fileName manifest.manifestDir item

/-- The repository's `sync` (src/unnamed/part_001, lines 597-619): every
declared file, present on disk or not, is processed by its own
independent `patchFile` task; the result is the list of per-file
outcomes, in enumeration order. -/
def sync (fetchGit : FetchOracle) (manifestFile : String)
    (doc : ManifestJson) (diskFiles : List String) :
    List (String × Except VendozaError (String × List String)) :=
  let manifest := loadManifest manifestFile doc
  (syncFiles manifest diskFiles).map fun fileName =>
    (fileName, syncFileResult fetchGit manifest fileName)

/-! ### String-level helper lemmas -/

theorem data_append (s t : String) : (s ++ t).data = s.data ++ t.data := rfl

theorem isPrefixOf_self_append (l s : List Char) :
    l.isPrefixOf (l ++ s) = true := by
  induction l with
  | nil => simp [List.isPrefixOf]
  | cons c cs ih => simp [List.isPrefixOf, ih]

theorem strStartsWith_self_append (p s : String) :
    strStartsWith (p ++ s) p = true := by
  show (p.data.isPrefixOf (p ++ s).data) = true
  rw [data_append]
  exact isPrefixOf_self_append p.data s.data

theorem strStartsWith_cons (c d : Char) (s : String) :
    strStartsWith (⟨[c]⟩ ++ s) ⟨[d]⟩ = (d == c) := by
  show List.isPrefixOf [d] (c :: s.data) = (d == c)
  simp [List.isPrefixOf]

theorem strDrop_one_cons (c : Char) (s : String) :
    strDrop (⟨[c]⟩ ++ s) 1 = s := rfl

theorem eq_cons_of_strStartsWith {l : String} {c : Char}
    (h : strStartsWith l ⟨[c]⟩ = true) : l = ⟨[c]⟩ ++ strDrop l 1 := by
  cases l with
  | mk data =>
    cases data with
    | nil => simp [strStartsWith, List.isPrefixOf] at h
    | cons d ds =>
      simp only [strStartsWith, List.isPrefixOf, List.isPrefixOf_nil_left,
        Bool.and_true] at h
      have : c = d := by simpa using h
      subst this
      rfl

/-! ### Line flipping -/

theorem flipLine_plus (s : String) : flipLine ("+" ++ s) = "-" ++ s := by
  have h : strStartsWith ("+" ++ s) "+" = true := strStartsWith_self_append _ _
  simp only [flipLine, h, if_true]
  rfl

theorem flipLine_minus (s : String) : flipLine ("-" ++ s) = "+" ++ s := by
  have h1 : strStartsWith ("-" ++ s) "+" = false := by
    simpa using strStartsWith_cons '-' '+' s
  have h2 : strStartsWith ("-" ++ s) "-" = true := strStartsWith_self_append _ _
  simp only [flipLine, h1, h2, Bool.false_eq_true, if_false, if_true]
  rfl

theorem flipLine_space (s : String) : flipLine (" " ++ s) = " " ++ s := by
  have h1 : strStartsWith (" " ++ s) "+" = false := by
    simpa using strStartsWith_cons ' ' '+' s
  have h2 : strStartsWith (" " ++ s) "-" = false := by
    simpa using strStartsWith_cons ' ' '-' s
  simp [flipLine, h1, h2]

theorem flipLine_flipLine (l : String) : flipLine (flipLine l) = l := by
  by_cases hp : strStartsWith l "+" = true
  · have hd : l = "+" ++ strDrop l 1 := eq_cons_of_strStartsWith hp
    rw [hd, flipLine_plus, flipLine_minus]
  · by_cases hm : strStartsWith l "-" = true
    · have hd : l = "-" ++ strDrop l 1 := eq_cons_of_strStartsWith hm
      rw [hd, flipLine_minus, flipLine_plus]
    · have e1 : flipLine l = l := by
        simp [flipLine, Bool.eq_false_iff.mpr hp, Bool.eq_false_iff.mpr hm]
      rw [e1, e1]

/-- Claim C3: hunk inversion is an involution — `reversePatch` applied
twice returns every hunk sequence unchanged; `reversePatch` swaps
`(oldStart, oldLines)` with `(newStart, newLines)` and flips `+`/`-`
line prefixes, leaving context lines alone. -/
theorem reversePatch_involution (hunks : List Hunk) :
    reversePatch (reversePatch hunks) = hunks := by
  unfold reversePatch
  rw [List.map_map]
  have hone : ∀ h : Hunk,
      ({ oldStart := h.oldStart, oldLines := h.oldLines,
         newStart := h.newStart, newLines := h.newLines,
         lines := (h.lines.map flipLine).map flipLine : Hunk}) = h := by
    intro h
    cases h with
    | mk a b c d ls =>
      simp only [Hunk.mk.injEq, true_and]
      rw [List.map_map]
      calc ls.map (flipLine ∘ flipLine) = ls.map id := by
            apply List.map_congr_left
            intro a _
            simpa using flipLine_flipLine a
        _ = ls := List.map_id ls
  calc hunks.map _ = hunks.map id := by
        apply List.map_congr_left
        intro h _
        simpa using hone h
    _ = hunks := List.map_id hunks

/-! ### Diff engine lemmas -/

theorem sw_plus_plus (s : String) : strStartsWith ("+" ++ s) "+" = true :=
  strStartsWith_self_append "+" s

theorem sw_minus_minus (s : String) : strStartsWith ("-" ++ s) "-" = true :=
  strStartsWith_self_append "-" s

theorem sw_plus_minus (s : String) : strStartsWith ("+" ++ s) "-" = false := by
  simpa using strStartsWith_cons '+' '-' s

theorem sw_minus_plus (s : String) : strStartsWith ("-" ++ s) "+" = false := by
  simpa using strStartsWith_cons '-' '+' s

theorem sw_space_plus (s : String) : strStartsWith (" " ++ s) "+" = false := by
  simpa using strStartsWith_cons ' ' '+' s

theorem sw_space_minus (s : String) : strStartsWith (" " ++ s) "-" = false := by
  simpa using strStartsWith_cons ' ' '-' s

theorem strDrop_one_plus (s : String) : strDrop ("+" ++ s) 1 = s := rfl

theorem strDrop_one_minus (s : String) : strDrop ("-" ++ s) 1 = s := rfl

theorem strDrop_one_space (s : String) : strDrop (" " ++ s) 1 = s := rfl

theorem Edit.isChange_flip (e : Edit) : e.flip.isChange = e.isChange := by
  cases e <;> rfl

theorem Edit.line_flip (e : Edit) : e.flip.line = flipLine e.line := by
  cases e with
  | keep s => exact (flipLine_space s).symm
  | del s => exact (flipLine_minus s).symm
  | ins s => exact (flipLine_plus s).symm

theorem oldOf_append (u v : List Edit) : oldOf (u ++ v) = oldOf u ++ oldOf v :=
  List.filterMap_append u v Edit.oldLine

theorem newOf_append (u v : List Edit) : newOf (u ++ v) = newOf u ++ newOf v :=
  List.filterMap_append u v Edit.newLine

theorem oldOf_map_flip (es : List Edit) : oldOf (es.map Edit.flip) = newOf es := by
  induction es with
  | nil => rfl
  | cons e es ih =>
    cases e <;>
      simp [oldOf, newOf, Edit.flip, Edit.oldLine, Edit.newLine,
        List.filterMap_cons] at ih ⊢ <;> exact ih

theorem newOf_map_flip (es : List Edit) : newOf (es.map Edit.flip) = oldOf es := by
  induction es with
  | nil => rfl
  | cons e es ih =>
    cases e <;>
      simp [oldOf, newOf, Edit.flip, Edit.oldLine, Edit.newLine,
        List.filterMap_cons] at ih ⊢ <;> exact ih

theorem oldSideOf_map_line (es : List Edit) :
    oldSideOf (es.map Edit.line) = oldOf es := by
  induction es with
  | nil => rfl
  | cons e es ih =>
    cases e with
    | keep s =>
      simp [oldSideOf, oldOf, Edit.line, List.filterMap_cons, Edit.oldLine,
        List.filter_cons, sw_space_plus, strDrop_one_space] at ih ⊢
      exact ih
    | del s =>
      simp [oldSideOf, oldOf, Edit.line, List.filterMap_cons, Edit.oldLine,
        List.filter_cons, sw_minus_plus, strDrop_one_minus] at ih ⊢
      exact ih
    | ins s =>
      simp [oldSideOf, oldOf, Edit.line, List.filterMap_cons, Edit.oldLine,
        List.filter_cons, sw_plus_plus] at ih ⊢
      exact ih

theorem newSideOf_map_line (es : List Edit) :
    newSideOf (es.map Edit.line) = newOf es := by
  induction es with
  | nil => rfl
  | cons e es ih =>
    cases e with
    | keep s =>
      simp [newSideOf, newOf, Edit.line, List.filterMap_cons, Edit.newLine,
        List.filter_cons, sw_space_minus, strDrop_one_space] at ih ⊢
      exact ih
    | del s =>
      simp [newSideOf, newOf, Edit.line, List.filterMap_cons, Edit.newLine,
        List.filter_cons, sw_minus_minus] at ih ⊢
      exact ih
    | ins s =>
      simp [newSideOf, newOf, Edit.line, List.filterMap_cons, Edit.newLine,
        List.filter_cons, sw_plus_minus, strDrop_one_plus] at ih ⊢
      exact ih

theorem line_prefix_of_isChange (e : Edit) (h : e.isChange = true) :
    (strStartsWith e.line "+" || strStartsWith e.line "-") = true := by
  cases e with
  | keep s => cases h
  | del s => simp [Edit.line, sw_minus_minus]
  | ins s => simp [Edit.line, sw_plus_plus]

theorem reversePatch_cons (h : Hunk) (t : List Hunk) :
    reversePatch (h :: t) =
      { oldStart := h.newStart, oldLines := h.newLines,
        newStart := h.oldStart, newLines := h.oldLines,
        lines := h.lines.map flipLine } :: reversePatch t := rfl

theorem reversePatch_scriptToHunks (s : List Edit) (o n : Nat) :
    reversePatch (scriptToHunks s o n) = scriptToHunks (s.map Edit.flip) n o := by
  have hfun : (Edit.isChange ∘ Edit.flip) = Edit.isChange :=
    funext Edit.isChange_flip
  have hline : (Edit.line ∘ Edit.flip) = (flipLine ∘ Edit.line) :=
    funext Edit.line_flip
  induction s, o, n using scriptToHunks.induct with
  | case1 o n => simp [scriptToHunks, reversePatch]
  | case2 x es o n ih => simpa [scriptToHunks, Edit.flip] using ih
  | case3 x es o n run rest ih =>
    have hcons : Edit.ins x :: es.map Edit.flip
        = (Edit.del x :: es).map Edit.flip := by simp [Edit.flip]
    have hrun : (Edit.ins x :: es.map Edit.flip).takeWhile Edit.isChange
        = ((Edit.del x :: es).takeWhile Edit.isChange).map Edit.flip := by
      rw [hcons, List.takeWhile_map, hfun]
    have hrest : (Edit.ins x :: es.map Edit.flip).dropWhile Edit.isChange
        = ((Edit.del x :: es).dropWhile Edit.isChange).map Edit.flip := by
      rw [hcons, List.dropWhile_map, hfun]
    simp only [scriptToHunks, List.map_cons, Edit.flip, reversePatch_cons]
    rw [hrun, hrest, oldOf_map_flip, newOf_map_flip]
    simp only [List.map_map, hline]
    exact congrArg₂ List.cons rfl ih
  | case4 x es o n run rest ih =>
    have hcons : Edit.del x :: es.map Edit.flip
        = (Edit.ins x :: es).map Edit.flip := by simp [Edit.flip]
    have hrun : (Edit.del x :: es.map Edit.flip).takeWhile Edit.isChange
        = ((Edit.ins x :: es).takeWhile Edit.isChange).map Edit.flip := by
      rw [hcons, List.takeWhile_map, hfun]
    have hrest : (Edit.del x :: es.map Edit.flip).dropWhile Edit.isChange
        = ((Edit.ins x :: es).dropWhile Edit.isChange).map Edit.flip := by
      rw [hcons, List.dropWhile_map, hfun]
    simp only [scriptToHunks, List.map_cons, Edit.flip, reversePatch_cons]
    rw [hrun, hrest, oldOf_map_flip, newOf_map_flip]
    simp only [List.map_map, hline]
    exact congrArg₂ List.cons rfl ih

theorem applyHunksAux_block (run : List Edit) (hs : List Hunk)
    (o n pos : Nat) (pre X newTail : List String)
    (ho : o = pos + pre.length)
    (hrec : applyHunksAux hs X (o + (oldOf run).length) = some newTail) :
    applyHunksAux
      ({ oldStart := o + 1, oldLines := (oldOf run).length,
         newStart := n + 1, newLines := (newOf run).length,
         lines := run.map Edit.line } :: hs)
      (pre ++ (oldOf run ++ X)) pos
      = some (pre ++ (newOf run ++ newTail)) := by
  simp only [applyHunksAux, oldSideOf_map_line, newSideOf_map_line,
    Nat.add_sub_cancel]
  have h1 : pos ≤ o := by omega
  rw [if_pos h1]
  have hskip : o - pos = pre.length := by omega
  rw [hskip, List.take_left, List.drop_left, List.take_left, List.drop_left]
  rw [if_pos ⟨by simp, by simp, rfl⟩, hrec]
  simp

theorem applyHunksAux_scriptToHunks (s : List Edit) (o n : Nat) :
    ∀ (pos : Nat) (pre : List String), o = pos + pre.length →
      applyHunksAux (scriptToHunks s o n) (pre ++ oldOf s) pos
        = some (pre ++ newOf s) := by
  induction s, o, n using scriptToHunks.induct with
  | case1 o n =>
    intro pos pre ho
    simp [scriptToHunks, applyHunksAux, oldOf, newOf]
  | case2 x es o n ih =>
    intro pos pre ho
    have hold : oldOf (Edit.keep x :: es) = x :: oldOf es := rfl
    have hnew : newOf (Edit.keep x :: es) = x :: newOf es := rfl
    simp only [scriptToHunks, hold, hnew]
    have h1 : pre ++ x :: oldOf es = (pre ++ [x]) ++ oldOf es := by simp
    have h2 : pre ++ x :: newOf es = (pre ++ [x]) ++ newOf es := by simp
    rw [h1, h2]
    refine ih pos (pre ++ [x]) ?_
    simp [ho]
    omega
  | case3 x es o n run rest ih =>
    intro pos pre ho
    simp only [scriptToHunks]
    have hold : oldOf (Edit.del x :: es)
        = oldOf ((Edit.del x :: es).takeWhile Edit.isChange)
          ++ oldOf ((Edit.del x :: es).dropWhile Edit.isChange) := by
      rw [← oldOf_append, List.takeWhile_append_dropWhile]
    have hnew : newOf (Edit.del x :: es)
        = newOf ((Edit.del x :: es).takeWhile Edit.isChange)
          ++ newOf ((Edit.del x :: es).dropWhile Edit.isChange) := by
      rw [← newOf_append, List.takeWhile_append_dropWhile]
    rw [hold, hnew]
    refine applyHunksAux_block _ _ _ _ _ _ _ _ ho ?_
    have hrec := ih (o + (oldOf ((Edit.del x :: es).takeWhile Edit.isChange)).length) [] (by simp)
    simpa using hrec
  | case4 x es o n run rest ih =>
    intro pos pre ho
    simp only [scriptToHunks]
    have hold : oldOf (Edit.ins x :: es)
        = oldOf ((Edit.ins x :: es).takeWhile Edit.isChange)
          ++ oldOf ((Edit.ins x :: es).dropWhile Edit.isChange) := by
      rw [← oldOf_append, List.takeWhile_append_dropWhile]
    have hnew : newOf (Edit.ins x :: es)
        = newOf ((Edit.ins x :: es).takeWhile Edit.isChange)
          ++ newOf ((Edit.ins x :: es).dropWhile Edit.isChange) := by
      rw [← newOf_append, List.takeWhile_append_dropWhile]
    rw [hold, hnew]
    refine applyHunksAux_block _ _ _ _ _ _ _ _ ho ?_
    have hrec := ih (o + (oldOf ((Edit.ins x :: es).takeWhile Edit.isChange)).length) [] (by simp)
    simpa using hrec

theorem editScript_proj (a b : List String) :
    oldOf (editScript a b) = a ∧ newOf (editScript a b) = b := by
  induction a, b using editScript.induct with
  | case1 => constructor <;> simp [editScript, oldOf, newOf]
  | case2 b bs ih =>
    simp only [editScript]
    constructor
    · show oldOf (editScript [] bs) = []
      exact ih.1
    · show b :: newOf (editScript [] bs) = b :: bs
      rw [ih.2]
  | case3 a as ih =>
    simp only [editScript]
    constructor
    · show a :: oldOf (editScript as []) = a :: as
      rw [ih.1]
    · show newOf (editScript as []) = []
      exact ih.2
  | case4 as b bs ih =>
    simp only [editScript, if_pos rfl]
    constructor
    · show b :: oldOf (editScript as bs) = b :: as
      rw [ih.1]
    · show b :: newOf (editScript as bs) = b :: bs
      rw [ih.2]
  | case5 a as b bs hne d i hcost ihd ihi =>
    simp only [editScript, if_neg hne, if_pos hcost]
    constructor
    · show a :: oldOf (editScript as (b :: bs)) = a :: as
      rw [ihd.1]
    · show newOf (editScript as (b :: bs)) = b :: bs
      exact ihd.2
  | case6 a as b bs hne d i hcost ihd ihi =>
    simp only [editScript, if_neg hne, if_neg hcost]
    constructor
    · show oldOf (editScript (a :: as) bs) = a :: as
      exact ihi.1
    · show b :: newOf (editScript (a :: as) bs) = b :: bs
      rw [ihi.2]

/-- Claim C2: round trip of diff, inversion and application — for every
pair of texts `(a, b)` (modelled by their line sequences), applying the
inverted hunk sequence `reversePatch (diff a b)` to `b` reproduces `a`
exactly. -/
theorem apply_invert_diff_roundtrip (a b : List String) :
    applyHunks (reversePatch (diff a b)) b = some a := by
  unfold applyHunks diff
  rw [reversePatch_scriptToHunks]
  have hproj := editScript_proj a b
  have h1 : oldOf ((editScript a b).map Edit.flip) = b := by
    rw [oldOf_map_flip, hproj.2]
  have h2 : newOf ((editScript a b).map Edit.flip) = a := by
    rw [newOf_map_flip, hproj.1]
  have hmain := applyHunksAux_scriptToHunks
    ((editScript a b).map Edit.flip) 0 0 0 [] (by simp)
  rw [h1, h2] at hmain
  simpa using hmain

/-- Every hunk a script assembles consists solely of added or removed
lines, since hunks are built from maximal runs of changes. -/
theorem scriptToHunks_all_change (s : List Edit) (o n : Nat) :
    ((scriptToHunks s o n).all fun h => h.lines.all fun l =>
      strStartsWith l "+" || strStartsWith l "-") = true := by
  induction s, o, n using scriptToHunks.induct with
  | case1 o n => simp [scriptToHunks]
  | case2 x es o n ih => simpa [scriptToHunks] using ih
  | case3 x es o n run rest ih =>
    simp only [scriptToHunks, List.all_cons]
    refine (Bool.and_eq_true _ _).mpr ⟨?_, ih⟩
    rw [List.all_eq_true]
    intro l hl
    rcases List.mem_map.mp hl with ⟨e, he, rfl⟩
    exact line_prefix_of_isChange e (List.mem_takeWhile_imp he)
  | case4 x es o n run rest ih =>
    simp only [scriptToHunks, List.all_cons]
    refine (Bool.and_eq_true _ _).mpr ⟨?_, ih⟩
    rw [List.all_eq_true]
    intro l hl
    rcases List.mem_map.mp hl with ⟨e, he, rfl⟩
    exact line_prefix_of_isChange e (List.mem_takeWhile_imp he)

/-- Claim C4: zero context padding — every hunk produced by `diff` covers
only changed regions: each of its body lines is an added (`+`) or removed
(`-`) line, never an unchanged context line. -/
theorem diff_zero_context (a b : List String) :
    ((diff a b).all fun h => h.lines.all fun l =>
      strStartsWith l "+" || strStartsWith l "-") = true :=
  scriptToHunks_all_change (editScript a b) 0 0

/-! ### Set reconciliation and the hunk comparator -/

/-- Claim C5: for all input sequences `L` and `R`, `listCompare` (the
spec's `reconcile`) returns `matched` elements present in both lists,
`leftDiff` elements absent from `R`, `rightDiff` elements absent from
`L`, and every element of `L` lands in `matched` or `leftDiff`. -/
theorem listCompare_spec {α : Type} [DecidableEq α] (L R : List α) :
    (∀ x ∈ (listCompare L R).matched, x ∈ L ∧ x ∈ R) ∧
    (∀ x ∈ (listCompare L R).leftDiff, x ∉ R) ∧
    (∀ x ∈ (listCompare L R).rightDiff, x ∉ L) ∧
    (∀ x ∈ L, x ∈ (listCompare L R).matched ∨ x ∈ (listCompare L R).leftDiff) := by
  refine ⟨?_, ?_, ?_, ?_⟩ <;> intro x hx <;>
    simp only [listCompare, List.mem_filter, decide_eq_true_eq] at hx ⊢ <;>
    tauto

/-- Witness for C5 at a concrete input: `1` is only on the left of
`listCompare [1, 2] [2, 3]`, so it does not occur in the right list. -/
theorem listCompare_spec_witness : (1 : Nat) ∉ ([2, 3] : List Nat) :=
  (listCompare_spec [1, 2] [2, 3]).2.1 1 (by decide)

/-- `compareDeltas` returns `none` exactly when the two hunk lists have
the same canonical serializations, as sets. -/
theorem compareDeltas_none_iff_mem (f : String) (g e : List Hunk) :
    compareDeltas f g e = none ↔
      (∀ s, s ∈ g.map stringifyHunk ↔ s ∈ e.map stringifyHunk) := by
  have hchar : (∀ s, s ∈ g.map stringifyHunk ↔ s ∈ e.map stringifyHunk) ↔
      ((listCompare (g.map stringifyHunk) (e.map stringifyHunk)).leftDiff.length = 0 ∧
       (listCompare (g.map stringifyHunk) (e.map stringifyHunk)).rightDiff.length = 0) := by
    simp only [listCompare, List.length_eq_zero, List.filter_eq_nil_iff,
      decide_eq_true_eq, not_not]
    constructor
    · intro h
      exact ⟨fun a ha => (h a).mp ha, fun a ha => (h a).mpr ha⟩
    · intro h s
      exact ⟨fun hs => h.1 s hs, fun hs => h.2 s hs⟩
  unfold compareDeltas
  by_cases hc :
      (listCompare (g.map stringifyHunk) (e.map stringifyHunk)).leftDiff.length = 0 ∧
      (listCompare (g.map stringifyHunk) (e.map stringifyHunk)).rightDiff.length = 0
  · rw [if_pos hc]
    exact iff_of_true rfl (hchar.mpr hc)
  · rw [if_neg hc]
    exact iff_of_false (by simp) fun hmem => hc (hchar.mp hmem)

/-- Claim C6: `compareDeltas` returns `null` if and only if the found and
expected hunk sequences are equal as sets of canonically-serialized
hunks, independent of order; in particular it returns `null` on any
permutation of the same hunks. -/
theorem compareDeltas_set_equal (f : String) (given exp : List Hunk) :
    (compareDeltas f given exp = none ↔
      (∀ s, s ∈ given.map stringifyHunk ↔ s ∈ exp.map stringifyHunk)) ∧
    (∀ (H P : List Hunk), H.Perm P → compareDeltas f H P = none) := by
  refine ⟨compareDeltas_none_iff_mem f given exp, ?_⟩
  intro H P hp
  exact (compareDeltas_none_iff_mem f H P).mpr
    fun s => (hp.map stringifyHunk).mem_iff

/-- Witness for C6 at a concrete input: two hunks listed in swapped
orders compare as equal. -/
theorem compareDeltas_set_equal_witness :
    compareDeltas "a.txt"
      [⟨1, 1, 1, 1, ["-x", "+y"]⟩, ⟨3, 0, 3, 1, ["+z"]⟩]
      [⟨3, 0, 3, 1, ["+z"]⟩, ⟨1, 1, 1, 1, ["-x", "+y"]⟩] = none :=
  (compareDeltas_set_equal "a.txt" [] []).2 _ _
    (List.Perm.swap (⟨3, 0, 3, 1, ["+z"]⟩ : Hunk) ⟨1, 1, 1, 1, ["-x", "+y"]⟩ [])

/-! ### Manifest loading -/

theorem jsMapGet_eq_none_of_not_mem {β : Type} (l : List (String × β))
    (name : String) (h : name ∉ l.map Prod.fst) : jsMapGet l name = none := by
  induction l with
  | nil => rfl
  | cons e es ih =>
    simp only [List.map_cons, List.mem_cons, not_or] at h
    simp only [jsMapGet, ih h.2]
    rw [if_neg fun he => h.1 he.symm]

theorem jsMapGet_map_of_nodup {β γ : Type} (l : List (String × β)) (f : β → γ)
    (hnd : (l.map Prod.fst).Nodup) (name : String) (item : β)
    (hmem : (name, item) ∈ l) :
    jsMapGet (l.map fun e => (e.1, f e.2)) name = some (f item) := by
  induction l with
  | nil => cases hmem
  | cons e es ih =>
    simp only [List.map_cons, List.nodup_cons] at hnd
    rcases List.mem_cons.mp hmem with heq | htail
    · subst heq
      have hnone : jsMapGet (es.map fun e => (e.1, f e.2)) name = none := by
        apply jsMapGet_eq_none_of_not_mem
        simpa [List.map_map, Function.comp] using hnd.1
      simp [jsMapGet, hnone]
    · have := ih hnd.2 htail
      simp [jsMapGet, this]

/-- Claim C7: for every manifest document, `loadManifest` defaults
`strict` to `false` when the key is absent, `patches` to `[]` for every
item without the key, `manifestDir` to the manifest file's containing
directory when not overridden, and `allowedExtra` to the declared list
plus the manifest file's own path relative to `manifestDir`.  The key
uniqueness hypothesis reflects that JSON objects have unique keys. -/
theorem loadManifest_defaults (manifestFile : String) (doc : ManifestJson)
    (hnd : ((doc.files.getD []).map Prod.fst).Nodup) :
    (doc.strict = none → (loadManifest manifestFile doc).strict = false) ∧
    (∀ name item, (name, item) ∈ doc.files.getD [] → item.patches = none →
      jsMapGet (loadManifest manifestFile doc).files name
        = some { source := item.source, patches := [] }) ∧
    (doc.manifestDir = none →
      (loadManifest manifestFile doc).manifestDir = dirname manifestFile) ∧
    ((loadManifest manifestFile doc).allowedExtra
      = (doc.allowedExtra.getD []).concat
          (relativePath (loadManifest manifestFile doc).manifestDir manifestFile)) := by
  refine ⟨?_, ?_, ?_, rfl⟩
  · intro hs
    simp [loadManifest, hs]
  · intro name item hmem hpat
    have := jsMapGet_map_of_nodup (doc.files.getD [])
      (fun it => ({ source := it.source, patches := it.patches.getD [] } : ManifestItem))
      hnd name item hmem
    simpa [loadManifest, hpat] using this
  · intro hd
    simp [loadManifest, hd]

/-- Witness for C7 at a concrete input: a one-file document with all
optional keys absent. -/
theorem loadManifest_defaults_witness :
    (loadManifest "vendor/manifest.json"
      { files := some [("src/a.ts",
          { source := .git { repo := "git@github.com:org/repo.git",
                             commit := "abc123", path := none },
            patches := none })],
        strict := none, manifestDir := none, allowedExtra := none }).strict = false ∧
    jsMapGet (loadManifest "vendor/manifest.json"
      { files := some [("src/a.ts",
          { source := .git { repo := "git@github.com:org/repo.git",
                             commit := "abc123", path := none },
            patches := none })],
        strict := none, manifestDir := none, allowedExtra := none }).files "src/a.ts"
      = some { source := .git { repo := "git@github.com:org/repo.git",
                                commit := "abc123", path := none },
               patches := [] } := by
  have h := loadManifest_defaults "vendor/manifest.json"
    { files := some [("src/a.ts",
        { source := .git { repo := "git@github.com:org/repo.git",
                           commit := "abc123", path := none },
          patches := none })],
      strict := none, manifestDir := none, allowedExtra := none }
    (by decide)
  exact ⟨h.1 rfl,
    h.2.1 "src/a.ts"
      { source := .git { repo := "git@github.com:org/repo.git",
                         commit := "abc123", path := none },
        patches := none }
      (by simp) rfl⟩

/-- Claim C8 (counterexample): `loadManifest` does not reject a document
whose file's source variant is not `git`; it succeeds and keeps the
file. -/
theorem loadManifest_accepts_non_git :
    loadManifest "vendor/manifest.json"
      { files := some [("a.txt", { source := .other "svn", patches := none })],
        strict := none, manifestDir := none, allowedExtra := none }
      = { files := [("a.txt", { source := .other "svn", patches := [] })],
          strict := false, manifestDir := "vendor",
          allowedExtra := ["manifest.json"] } := by
  decide

/-- Claim C8 (amended): loading succeeds for any source variant; the
unsupported-source error is raised later, by `readSource`, when the
file's source is first read (during audit's `checkFile` or sync's
`patchFile`), for every non-`git` variant. -/
theorem readSource_non_git_fails (fetchGit : FetchOracle)
    (fileName key : String) :
    readSource fetchGit fileName (.other key)
      = .error (.unsupportedSource fileName) := rfl

/-! ### Sync -/

/-- Claim C9: during sync, a declared file whose recorded (inverted)
hunks do not match the fetched baseline fails with the per-file
patch-apply error, and this failure does not abort the processing of the
sibling declared files: every processed file's outcome appears in the
run's result, computed by its own independent per-file task. -/
theorem sync_patchApply_isolated (fetchGit : FetchOracle)
    (manifestFile : String) (doc : ManifestJson) (diskFiles : List String)
    (f : String) (item : ManifestItem) (baseline : List String)
    (hmem : f ∈ syncFiles (loadManifest manifestFile doc) diskFiles)
    (hitem : jsMapGet (loadManifest manifestFile doc).files f = some item)
    (hfetch : readSource fetchGit f item.source = .ok baseline)
    (hfail : applyHunks (reversePatch item.patches) baseline = none) :
    ((f, Except.error (VendozaError.patchApply f))
        ∈ sync fetchGit manifestFile doc diskFiles) ∧
    (∀ g ∈ syncFiles (loadManifest manifestFile doc) diskFiles,
      (g, syncFileResult fetchGit (loadManifest manifestFile doc) g)
        ∈ sync fetchGit manifestFile doc diskFiles) := by
  have hres : syncFileResult fetchGit (loadManifest manifestFile doc) f
      = .error (.patchApply f) := by
    simp only [syncFileResult, hitem, patchFile, hfetch]
    show (match applyHunks (reversePatch item.patches) baseline with
      | some patched =>
        (pure ((loadManifest manifestFile doc).manifestDir ++ "/" ++ f, patched)
          : Except VendozaError (String × List String))
      | none => Except.error (.patchApply f))
      = Except.error (.patchApply f)
    rw [hfail]
  constructor
  · have hin : (f, syncFileResult fetchGit (loadManifest manifestFile doc) f)
        ∈ sync fetchGit manifestFile doc diskFiles :=
      List.mem_map_of_mem _ hmem
    rwa [hres] at hin
  · intro g hg
    exact List.mem_map_of_mem _ hg

/-- Witness for C9 at a concrete run: the declared file `a.txt` carries a
stale recorded patch and fails, while its sibling `b.txt` is still
processed and written. -/
theorem sync_patchApply_isolated_witness :
    (("a.txt", Except.error (VendozaError.patchApply "a.txt"))
        ∈ sync (fun _ _ => .ok ["base"]) "vendor/manifest.json"
            { files := some
                [("a.txt", { source := .git { repo := "r", commit := "c",
                                              path := none },
                             patches := some [⟨1, 1, 1, 1, ["-x", "+y"]⟩] }),
                 ("b.txt", { source := .git { repo := "r", commit := "c",
                                              path := none },
                             patches := none })],
              strict := none, manifestDir := none, allowedExtra := none }
            []) ∧
    (∀ g ∈ syncFiles (loadManifest "vendor/manifest.json"
            { files := some
                [("a.txt", { source := .git { repo := "r", commit := "c",
                                              path := none },
                             patches := some [⟨1, 1, 1, 1, ["-x", "+y"]⟩] }),
                 ("b.txt", { source := .git { repo := "r", commit := "c",
                                              path := none },
                             patches := none })],
              strict := none, manifestDir := none, allowedExtra := none }) [],
      (g, syncFileResult (fun _ _ => .ok ["base"])
            (loadManifest "vendor/manifest.json"
              { files := some
                  [("a.txt", { source := .git { repo := "r", commit := "c",
                                                path := none },
                               patches := some [⟨1, 1, 1, 1, ["-x", "+y"]⟩] }),
                   ("b.txt", { source := .git { repo := "r", commit := "c",
                                                path := none },
                               patches := none })],
                strict := none, manifestDir := none, allowedExtra := none }) g)
        ∈ sync (fun _ _ => .ok ["base"]) "vendor/manifest.json"
            { files := some
                [("a.txt", { source := .git { repo := "r", commit := "c",
                                              path := none },
                             patches := some [⟨1, 1, 1, 1, ["-x", "+y"]⟩] }),
                 ("b.txt", { source := .git { repo := "r", commit := "c",
                                              path := none },
                             patches := none })],
              strict := none, manifestDir := none, allowedExtra := none }
            []) :=
  sync_patchApply_isolated (fun _ _ => .ok ["base"]) "vendor/manifest.json"
    { files := some
        [("a.txt", { source := .git { repo := "r", commit := "c",
                                      path := none },
                     patches := some [⟨1, 1, 1, 1, ["-x", "+y"]⟩] }),
         ("b.txt", { source := .git { repo := "r", commit := "c",
                                      path := none },
                     patches := none })],
      strict := none, manifestDir := none, allowedExtra := none }
    [] "a.txt"
    { source := .git { repo := "r", commit := "c", path := none },
      patches := [⟨1, 1, 1, 1, ["-x", "+y"]⟩] }
    ["base"] (by decide) (by decide) rfl (by decide)

/-! ### Audit -/

/-- The verdict computation of `audit`, characterized: the cascade of
flag updates is the three-way disjunction of the spec. -/
theorem verdict_iff (MF EF : List String) (ERR : List Divergence) (S : Bool) :
    ((if ERR.length > 0 then true
      else if EF.length > 0 then (if S then true else (if MF.length > 0 then true else false))
      else (if MF.length > 0 then true else false)) = true)
      ↔ (MF ≠ [] ∨ ERR ≠ [] ∨ (EF ≠ [] ∧ S = true)) := by
  cases S <;> by_cases hM : MF = [] <;> by_cases hE : EF = [] <;>
    by_cases hR : ERR = [] <;> simp_all [List.length_pos]

/-- Claim C1: an audit run that completes fails if and only if
`missingFiles` is non-empty, or the collected divergences (`errors`) are
non-empty, or `extraFiles` (the unexpected extras remaining after
`allowedExtra` filtering) is non-empty while the manifest is strict; in
particular non-strict unexpected extras alone never fail the run. -/
theorem audit_verdict (fetchGit : FetchOracle) (manifestFile : String)
    (doc : ManifestJson) (diskFiles : List String)
    (readDisk : String → List String) (writePatches : Bool) (r : AuditResult)
    (h : audit fetchGit manifestFile doc diskFiles readDisk writePatches = .ok r) :
    (r.failed = true ↔
      (r.missingFiles ≠ [] ∨ r.errors ≠ [] ∨ (r.extraFiles ≠ [] ∧ r.strict = true))) ∧
    (r.strict = false → r.missingFiles = [] → r.errors = [] → r.failed = false) := by
  simp only [audit] at h
  split at h
  · exact absurd h (by simp)
  · rw [Except.ok.injEq] at h
    subst h
    dsimp only
    refine ⟨verdict_iff _ _ _ _, ?_⟩
    intro hS hM hR
    simp [hS, hM, hR]

/-- Witness for C1 at a concrete run: one declared file missing from an
empty disk makes a non-strict audit fail. -/
theorem audit_verdict_witness :
    (({ files := [], missingFiles := ["a.txt"], extraFiles := [],
        errors := [], strict := false, failed := true,
        writes := [] : AuditResult }).failed = true ↔
      (({ files := [], missingFiles := ["a.txt"], extraFiles := [],
          errors := [], strict := false, failed := true,
          writes := [] : AuditResult }).missingFiles ≠ [] ∨
        ({ files := [], missingFiles := ["a.txt"], extraFiles := [],
           errors := [], strict := false, failed := true,
           writes := [] : AuditResult }).errors ≠ [] ∨
        (({ files := [], missingFiles := ["a.txt"], extraFiles := [],
            errors := [], strict := false, failed := true,
            writes := [] : AuditResult }).extraFiles ≠ [] ∧
          ({ files := [], missingFiles := ["a.txt"], extraFiles := [],
             errors := [], strict := false, failed := true,
             writes := [] : AuditResult }).strict = true))) ∧
    (({ files := [], missingFiles := ["a.txt"], extraFiles := [],
        errors := [], strict := false, failed := true,
        writes := [] : AuditResult }).strict = false →
      ({ files := [], missingFiles := ["a.txt"], extraFiles := [],
         errors := [], strict := false, failed := true,
         writes := [] : AuditResult }).missingFiles = [] →
      ({ files := [], missingFiles := ["a.txt"], extraFiles := [],
         errors := [], strict := false, failed := true,
         writes := [] : AuditResult }).errors = [] →
      ({ files := [], missingFiles := ["a.txt"], extraFiles := [],
         errors := [], strict := false, failed := true,
         writes := [] : AuditResult }).failed = false) :=
  audit_verdict (fun _ _ => .ok []) "m.json"
    { files := some [("a.txt",
        { source := .git { repo := "r", commit := "c", path := none },
          patches := none })],
      strict := none, manifestDir := none, allowedExtra := none }
    [] (fun _ => []) false
    { files := [], missingFiles := ["a.txt"], extraFiles := [],
      errors := [], strict := false, failed := true, writes := [] }
    rfl

/-- Claim C10: an audit run that completes performs no file-system write
other than, possibly, `patches.json` — in particular it never writes
under `manifestDir` — and that single write happens only when patch
capture was requested and at least one divergence was collected. -/
theorem audit_writes_only_patches (fetchGit : FetchOracle)
    (manifestFile : String) (doc : ManifestJson) (diskFiles : List String)
    (readDisk : String → List String) (writePatches : Bool) (r : AuditResult)
    (h : audit fetchGit manifestFile doc diskFiles readDisk writePatches = .ok r) :
    (∀ w ∈ r.writes, w.1 = "patches.json") ∧
    (r.writes ≠ [] → writePatches = true ∧ r.errors ≠ []) := by
  simp only [audit] at h
  split at h
  · exact absurd h (by simp)
  · rw [Except.ok.injEq] at h
    subst h
    dsimp only
    constructor
    · intro w hw
      split at hw
      · rcases List.mem_singleton.mp hw with rfl
        rfl
      · cases hw
    · intro hne
      split at hne
      · next hc =>
        refine ⟨hc.2, ?_⟩
        intro hR
        rcases hc with ⟨hlen, -⟩
        rw [hR] at hlen
        simp at hlen
      · exact absurd rfl hne

/-- Witness for C10 at a concrete run: patch capture requested, but the
only finding is a missing file, so nothing is written. -/
theorem audit_writes_only_patches_witness :
    (∀ w ∈ ({ files := [], missingFiles := ["a.txt"], extraFiles := [],
              errors := [], strict := false, failed := true,
              writes := [] : AuditResult }).writes, w.1 = "patches.json") ∧
    (({ files := [], missingFiles := ["a.txt"], extraFiles := [],
        errors := [], strict := false, failed := true,
        writes := [] : AuditResult }).writes ≠ [] →
      true = true ∧
      ({ files := [], missingFiles := ["a.txt"], extraFiles := [],
         errors := [], strict := false, failed := true,
         writes := [] : AuditResult }).errors ≠ []) :=
  audit_writes_only_patches (fun _ _ => .ok []) "m.json"
    { files := some [("a.txt",
        { source := .git { repo := "r", commit := "c", path := none },
          patches := none })],
      strict := none, manifestDir := none, allowedExtra := none }
    [] (fun _ => []) true
    { files := [], missingFiles := ["a.txt"], extraFiles := [],
      errors := [], strict := false, failed := true, writes := [] }
    rfl

end Vendoza
